import Mathlib

/-
Verification development for the COMPASS ordinance-extraction pipeline.

Python strings are modelled as `List Char` (`PyStr`).  Python string
primitives (`in`, `str.replace`, `str.find`, slicing, strip) are embedded
as executable Lean functions with Python's semantics.  Stateful classes
are embedded as explicit state-passing functions; LLM services and the
JSON parser of the standard library are abstracted as function
parameters.
-/

namespace Compass

/-- Python strings, modelled as lists of characters. -/
abbrev PyStr := List Char

/-- Python substring test `p in t` (`str.__contains__`). -/
def pyContains (t p : PyStr) : Bool :=
  match t with
  | [] => p.isPrefixOf ([] : PyStr)
  | _ :: ts => p.isPrefixOf t || pyContains ts p

/-- Python `t.find(p)`: index of the leftmost occurrence, as an `Option`
(`none` models the return value `-1`). -/
def pyFindAux (t p : PyStr) (i : Nat) : Option Nat :=
  if p.isPrefixOf t then some i
  else
    match t with
    | [] => none
    | _ :: ts => pyFindAux ts p (i + 1)

/-- Python `t.find(p)` from index 0. -/
def pyFind (t p : PyStr) : Option Nat := pyFindAux t p 0

/-- Fuel-indexed helper for `pyReplace`; the fuel dominates the length
of the text, so the fuel-exhausted branch is never taken. -/
def pyReplaceAux : Nat → PyStr → PyStr → PyStr → PyStr
  | _, [], _, _ => []
  | 0, t, _, _ => t
  | fuel + 1, c :: ts, p, r =>
    if p.isPrefixOf (c :: ts) then
      r ++ pyReplaceAux fuel (ts.drop (p.length - 1)) p r
    else c :: pyReplaceAux fuel ts p r

/-- Python `t.replace(p, r)` for a non-empty pattern `p`: global,
leftmost, non-overlapping replacement.  (The embedding is only used with
non-empty patterns; Python's special case for an empty pattern is not
modelled.) -/
def pyReplace (t p r : PyStr) : PyStr := pyReplaceAux t.length t p r

/-- Python whitespace characters (the characters stripped by
`str.strip()` on ASCII text). -/
def isPyWs (c : Char) : Bool :=
  c = ' ' || c = '\t' || c = '\n' || c = '\r' || c = '\x0b' || c = '\x0c'

/-- Python `t.lstrip().rstrip()` (strip whitespace from both ends). -/
def pyStripWs (t : PyStr) : PyStr :=
  ((t.dropWhile isPyWs).reverse.dropWhile isPyWs).reverse

/-- Python `t.removeprefix(p)`. -/
def pyRemovePre (t p : PyStr) : PyStr :=
  if p.isPrefixOf t then t.drop p.length else t

/-- Python `t.removesuffix(p)`. -/
def pyRemoveSuf (t p : PyStr) : PyStr :=
  if p.isSuffixOf t then t.take (t.length - p.length) else t

/-- Python `t[-k:]` for `k : Nat` (for `k = 0` this is the whole string,
mirroring `t[-0:] = t[0:]`). -/
def pySliceLast (t : PyStr) (k : Nat) : PyStr :=
  if k = 0 then t else t.drop (t.length - k)

/-- Python values as they appear in parsed JSON dictionaries (the subset
relevant to the validation memos: `None`, booleans, strings, integers). -/
inductive PyVal where
  | none : PyVal
  | bool : Bool → PyVal
  | str : String → PyVal
  | int : Int → PyVal
deriving DecidableEq

/-- Python truthiness of a `PyVal` (`bool(v)`). -/
def PyVal.truthy : PyVal → Bool
  | .none => false
  | .bool b => b
  | .str s => !(s = "")
  | .int n => !(n = 0)

/-- Python dictionaries with string keys, modelled as association lists. -/
abbrev PyDict := List (String × PyVal)

/-- Python `d.get(k)` as an `Option` over the association list. -/
def dictGet (d : PyDict) (k : String) : Option PyVal :=
  (d.find? (fun p => p.1 = k)).map (·.2)

/-- Python `d.get(k, default)`. -/
def pyGet (d : PyDict) (k : String) (dflt : PyVal) : PyVal :=
  (dictGet d k).getD dflt

/-- Python `d[k] = v` (overwrite if present, append if absent). -/
def dictSet (d : PyDict) (k : String) (v : PyVal) : PyDict :=
  if (d.find? (fun p => p.1 = k)).isSome then
    d.map (fun p => if p.1 = k then (k, v) else p)
  else d ++ [(k, v)]

/-
Source: src/compass/process.py, module-level column constants.

PARSED_COLS = [ "county", "state", "FIPS", "feature", "value", "units",
  "adder", "min_dist", "max_dist", "summary", "ord_year", "last_updated",
  "section", "source", "quantitative" ]
QUANT_OUT_COLS = PARSED_COLS[:-1]
QUAL_OUT_COLS = PARSED_COLS[:4] + PARSED_COLS[-6:-1]
-/

/-- Column order of the aggregated parsed table
(`PARSED_COLS` in `src/compass/process.py`). -/
def PARSED_COLS : List String :=
  ["county", "state", "FIPS", "feature", "value", "units", "adder",
   "min_dist", "max_dist", "summary", "ord_year", "last_updated",
   "section", "source", "quantitative"]

/-- Columns of `quantitative_ordinances.csv`: `PARSED_COLS[:-1]`. -/
def QUANT_OUT_COLS : List String := PARSED_COLS.dropLast

/-- Columns of `qualitative_ordinances.csv`:
`PARSED_COLS[:4] + PARSED_COLS[-6:-1]` (indices 9 through 13). -/
def QUAL_OUT_COLS : List String :=
  PARSED_COLS.take 4 ++ (PARSED_COLS.drop 9).take 5

/-- A row of the aggregated ordinance table after `_formatted_db`
(`src/compass/process.py`): all `PARSED_COLS` are present and
`quantitative` has been coerced to a genuine boolean. -/
structure OrdRow where
  county : PyVal
  state : PyVal
  fips : PyVal
  feature : PyVal
  value : PyVal
  units : PyVal
  adder : PyVal
  minDist : PyVal
  maxDist : PyVal
  summary : PyVal
  ordYear : PyVal
  lastUpdated : PyVal
  sec : PyVal
  source : PyVal
  quantitative : Bool
deriving DecidableEq

/-- The `quantitative` coercion of `_formatted_db`:
`db["quantitative"].astype("boolean").fillna(True)` maps a missing value
to `True` and keeps genuine booleans. -/
def formatQuantitative (b : Option Bool) : Bool := b.getD true

/-- `_save_db` (`src/compass/process.py`): split the aggregated table
into the qualitative rows (`db[~db["quantitative"]]`, written with
`QUAL_OUT_COLS`) and the quantitative rows (`db[db["quantitative"]]`,
written with `QUANT_OUT_COLS`). -/
def saveDb (rows : List OrdRow) : List OrdRow × List OrdRow :=
  (rows.filter (fun r => !r.quantitative), rows.filter (fun r => r.quantitative))

/-- A row of the aggregated ordinance-values table as seen by
`_empirical_adjustments` (`src/compass/process.py`): the `adder` column
holds a number or a null (pandas `NaN`/`None`). -/
structure OrdValRow where
  feature : String
  value : Option ℚ
  adder : Option ℚ
  minDist : Option ℚ
  maxDist : Option ℚ
  summary : Option String
deriving DecidableEq

/-- `_empirical_adjustments` (`src/compass/process.py`):
`db.loc[db["adder"] > 250, "adder"] = None`.  In pandas the mask
`db["adder"] > 250` is false on nulls, so exactly the rows whose `adder`
is a number strictly greater than 250 are nulled. -/
def empiricalAdjustments (rows : List OrdValRow) : List OrdValRow :=
  rows.map (fun r =>
    match r.adder with
    | some a => if 250 < a then { r with adder := Option.none } else r
    | Option.none => r)

/-- One merge step of `merge_overlapping_texts`
(`src/compass/utilities/parsing.py`): search the last `2n` characters of
the accumulated output for the first `n` characters of the successor; on
a miss join with a newline, on a hit at index `i` append
`next_text[2*n - i:]`. -/
def mergePair (n : Nat) (out next : PyStr) : PyStr :=
  match pyFind (pySliceLast out (2 * n)) (next.take n) with
  | Option.none => out ++ '\n' :: next
  | some i => out ++ next.drop (2 * n - i)

/-- `merge_overlapping_texts(text_chunks, n)`
(`src/compass/utilities/parsing.py`): left fold of `mergePair` over the
successors. -/
def mergeOverlappingTexts (chunks : List PyStr) (n : Nat) : PyStr :=
  match chunks with
  | [] => []
  | t0 :: rest => rest.foldl (mergePair n) t0

/-- Message roles of a chat transcript. -/
inductive Role where
  | system : Role
  | user : Role
  | assistant : Role
deriving DecidableEq

/-- A chat message: role and content. -/
abbrev ChatMsg := Role × String

/-- `ChatLLMCaller.__init__` (`src/compass/llm/calling.py`): the
transcript is seeded with the single system message. -/
def chatInit (sysMsg : String) : List ChatMsg := [(Role.system, sysMsg)]

/-- `ChatLLMCaller.call` (`src/compass/llm/calling.py`): append the user
message; if the service returns no response (`resp = none`), roll back
via `self.messages = self.messages[:-1]` and return `None`; otherwise
append the assistant message and return the response.  The service's
return value is passed in as `resp`. -/
def chatCall (ms : List ChatMsg) (content : String) (resp : Option String) :
    List ChatMsg × Option String :=
  let withUser := ms ++ [(Role.user, content)]
  match resp with
  | Option.none => (withUser.dropLast, Option.none)
  | some r => (withUser ++ [(Role.assistant, r)], some r)

/-- Transcripts reachable by a `ChatLLMCaller`: the seeded transcript and
anything obtained from a reachable transcript by one `call`. -/
inductive ReachableTranscript : List ChatMsg → Prop where
  | init (sysMsg : String) : ReachableTranscript (chatInit sysMsg)
  | step (ms : List ChatMsg) (content : String) (resp : Option String) :
      ReachableTranscript ms → ReachableTranscript (chatCall ms content resp).1

/-- The transcript invariant: message 0 is the system message and for
`i > 0` the role at `i` is `user` when `i` is odd and `assistant` when
`i` is even. -/
def WellFormedTranscript (ms : List ChatMsg) : Prop :=
  ms ≠ [] ∧ ∀ i (h : i < ms.length),
    (ms.get ⟨i, h⟩).1 =
      (if i = 0 then Role.system
       else if i % 2 = 1 then Role.user else Role.assistant)

/-- The literal `_JSON_INSTRUCTIONS` string of `src/compass/llm/calling.py`. -/
def JSON_INSTRUCTIONS : PyStr := "Return your answer in JSON format".toList

/-- The substring `_add_json_instructions_if_needed` actually checks for. -/
def JSON_FORMAT_MARKER : PyStr := "JSON format".toList

/-- `_add_json_instructions_if_needed` (`src/compass/llm/calling.py`):
if `"JSON format" not in system_message`, the message becomes
`f"{system_message}\n{_JSON_INSTRUCTIONS}."`. -/
def addJsonInstructions (sysMsg : PyStr) : PyStr :=
  if pyContains sysMsg JSON_FORMAT_MARKER then sysMsg
  else sysMsg ++ '\n' :: (JSON_INSTRUCTIONS ++ ['.'])

/-- The string transformations `llm_response_as_json`
(`src/compass/utilities/parsing.py`) applies before handing the content
to `json.loads`: strip outer whitespace, remove a leading triple-backtick
fence and a leading `json` language tag, drop leading newlines, remove a
trailing triple-backtick fence, then replace every `"True"` with
`"true"` and every `"False"` with `"false"`. -/
def jsonPreprocess (content : PyStr) : PyStr :=
  let c1 := pyStripWs content
  let c2 := pyRemovePre c1 ("```".toList)
  let c3 := pyRemovePre c2 ("json".toList)
  let c4 := c3.dropWhile (fun c => c = '\n')
  let c5 := pyRemoveSuf c4 ("```".toList)
  let c6 := pyReplace c5 ("True".toList) ("true".toList)
  pyReplace c6 ("False".toList) ("false".toList)

/-- `llm_response_as_json` (`src/compass/utilities/parsing.py`), with
`json.loads` abstracted as the function `parse`: on a parse failure the
result is the empty dictionary `emptyDict`, otherwise the parsed value. -/
def llmResponseAsJson {α : Type} (emptyDict : α) (parse : PyStr → Option α)
    (content : PyStr) : α :=
  (parse (jsonPreprocess content)).getD emptyDict

/-- `StructuredLLMCaller.call` (`src/compass/llm/calling.py`): ensure the
JSON instruction, submit, and return
`llm_response_as_json(response) if response else {}`.  The service's
return value is passed in as `resp` (`none` models `None`, `some []`
models the falsy empty string); the first component is the system
message actually submitted. -/
def structuredCall {α : Type} (emptyDict : α) (parse : PyStr → Option α)
    (sysMsg : PyStr) (resp : Option PyStr) : PyStr × α :=
  (addJsonInstructions sysMsg,
   match resp with
   | Option.none => emptyDict
   | some r => if r = [] then emptyDict else llmResponseAsJson emptyDict parse r)

/-- State of a `ValidationWithMemory`
(`src/compass/validation/content.py`): the text chunks and the
per-chunk memo dictionaries (`self.memory = [{} for _ in text_chunks]`). -/
structure VState where
  chunks : List String
  memory : List PyDict
deriving DecidableEq

/-- The loop body of `ValidationWithMemory.parse_from_ind`: walk the
chunk indices downward from `j`, `fuel` many of them.  At each index read
the memoized verdict (`mem.get(key)`); when it is `None`, query the LLM
(abstracted as `oracle`, applied to the system message and the chunk
text), store `content.get(key, False)` in the memo, and use it; return
the first truthy verdict, or `False` once the fuel is exhausted.  The
result also carries the list of chunk indices at which an LLM call was
issued. -/
def scanChunks (oracle : String → String → PyDict) (sysMsg key : String) :
    Nat → Nat → VState → VState × PyVal × List Nat
  | 0, _, st => (st, PyVal.bool false, [])
  | fuel + 1, j, st =>
    let mem := st.memory.getD j []
    let check := pyGet mem key PyVal.none
    if check = PyVal.none then
      let content := oracle sysMsg (st.chunks.getD j "")
      let verdict := pyGet content key (PyVal.bool false)
      let st' : VState := { st with memory := st.memory.set j (dictSet mem key verdict) }
      if verdict.truthy then (st', verdict, [j])
      else
        let next := scanChunks oracle sysMsg key fuel (j - 1) st'
        (next.1, next.2.1, j :: next.2.2)
    else if check.truthy then (st, check, [])
    else scanChunks oracle sysMsg key fuel (j - 1) st

/-- `ValidationWithMemory.parse_from_ind(ind, prompt, key)`
(`src/compass/validation/content.py`): the zipped reversed slices
`memory[:ind+1][::-1][:num_to_recall]` visit the
`min(num_to_recall, ind+1)` chunk indices `ind, ind-1, …`; the system
message is `prompt.format(key=key)`, abstracted as `fmt prompt key`. -/
def parseFromInd (oracle : String → String → PyDict)
    (fmt : String → String → String) (numToRecall : Nat) (st : VState)
    (ind : Nat) (prompt key : String) : VState × PyVal × List Nat :=
  scanChunks oracle (fmt prompt key) key (min numToRecall (ind + 1)) ind st

/-- A candidate ordinance document as ranked by `_ord_doc_sorting_key`
(`src/compass/download.py`): the `date` metadata triple (default
`(-1, -1, -1)`), whether it is a `PDFDocument`, the
`CountyNameValidator` score, the `CountyJurisdictionValidator` score
(both default 0), and the text length.  `contentScore` stands for the
content score named by the spec's ranking tuple; it is carried in the
metadata model so the spec's tuple can be stated, but
`_ord_doc_sorting_key` never reads it. -/
structure ElmDoc where
  year : Int
  month : Int
  day : Int
  isPdf : Bool
  nameScore : ℚ
  jurisScore : ℚ
  contentScore : ℚ
  textLen : Nat
deriving DecidableEq

/-- `_ord_doc_sorting_key` (`src/compass/download.py`): the Python tuple
`(latest_year, prefer_pdf_files, highest_name_score,
highest_jurisdiction_score, -len(doc.text), latest_month, latest_day)`
under Python's lexicographic tuple comparison. -/
def ordDocSortingKey (d : ElmDoc) :
    Int ×ₗ Bool ×ₗ ℚ ×ₗ ℚ ×ₗ Int ×ₗ Int ×ₗ Int :=
  toLex (d.year, toLex (d.isPdf, toLex (d.nameScore, toLex (d.jurisScore,
    toLex (-(d.textLen : Int), toLex (d.month, d.day))))))

/-- Modelled from the spec: the ranking tuple the specification states
for the retrieval funnel, `(year, is_pdf, jurisdiction_score,
content_score, -text_length, month, day)`.  (The corresponding
constants of `compass/validation/location.py` are not under `src/`; the
tuple is written from the spec's words for comparison with
`ordDocSortingKey`.) -/
def specRankingKey (d : ElmDoc) :
    Int ×ₗ Bool ×ₗ ℚ ×ₗ ℚ ×ₗ Int ×ₗ Int ×ₗ Int :=
  toLex (d.year, toLex (d.isPdf, toLex (d.jurisScore, toLex (d.contentScore,
    toLex (-(d.textLen : Int), toLex (d.month, d.day))))))

/-- `_sort_final_ord_docs` (`src/compass/download.py`):
`max(all_ord_docs, key=_ord_doc_sorting_key)` for a non-empty list,
`None` otherwise.  Python's `max` keeps the current value and replaces
it only when a later key compares strictly greater. -/
def sortFinalOrdDocs (docs : List ElmDoc) : Option ElmDoc :=
  match docs with
  | [] => Option.none
  | d :: rest =>
      some (rest.foldl
        (fun best x => if ordDocSortingKey best < ordDocSortingKey x then x else best) d)

/-- `Jurisdiction` (`src/compass/utilities/location.py`). -/
structure Jurisdiction where
  name : PyStr
  state : PyStr
  code : Option Int
  is_parish : Bool

/-- Python `str.casefold`, abstracted by its character-wise folding
function `cf` (Unicode case folding maps each character independently to
a character sequence). -/
def pyCasefold (cf : Char → List Char) (s : PyStr) : PyStr := s.flatMap cf

/-- The `loc_id` of `Jurisdiction.full_name`: `"Parish"` for parishes,
else `"County"`. -/
def locId (j : Jurisdiction) : PyStr :=
  if j.is_parish then "Parish".toList else "County".toList

/-- `Jurisdiction.full_name`: `f"{name} {loc_id}, {state}"`. -/
def fullName (j : Jurisdiction) : PyStr :=
  j.name ++ ' ' :: (locId j ++ ',' :: ' ' :: j.state)

/-- `Jurisdiction.__eq__` on two `Jurisdiction` values: casefolded names
and states agree and the parish flags are equal. -/
def jurisdictionEq (cf : Char → List Char) (a b : Jurisdiction) : Bool :=
  decide (pyCasefold cf a.name = pyCasefold cf b.name) &&
    decide (pyCasefold cf a.state = pyCasefold cf b.state) &&
    decide (a.is_parish = b.is_parish)

/-- `Jurisdiction.__hash__`: `hash(self.full_name.casefold())`, with
Python's string hash abstracted as `hashStr`. -/
def jurisdictionHash (cf : Char → List Char) (hashStr : PyStr → Int)
    (j : Jurisdiction) : Int :=
  hashStr (pyCasefold cf (fullName j))

/-- `NOT_WIND_WORDS` (`src/compass/extraction/wind/document_validation.py`),
in source order. -/
def NOT_WIND_WORDS : List PyStr :=
  ["windy", "winds", "window", "windiest", "windbreak", "windshield",
   "wind blow", "wind erosion", "rewind", "mini wecs", "swecs",
   "private wecs", "pwecs", "wind direction", "wind movement",
   "wind attribute", "wind runway", "wind load", "wind orient",
   "wind damage"].map String.toList

/-- `GOOD_WIND_KEYWORDS`. -/
def GOOD_WIND_KEYWORDS : List PyStr := ["wind", "setback"].map String.toList

/-- `GOOD_WIND_ACRONYMS`. -/
def GOOD_WIND_ACRONYMS : List PyStr :=
  ["wecs", "wes", "lwet", "uwet", "wef"].map String.toList

/-- `_GOOD_ACRONYM_CONTEXTS`, each as the (prefix, suffix) pair around
the `{acronym}` placeholder. -/
def GOOD_ACRONYM_CONTEXTS : List (PyStr × PyStr) :=
  [(" ", " "), (" ", "\n"), (" ", "."), ("\n", " "), ("\n", "."),
   ("\n", "\n"), ("(", " "), (" ", ")")].map
    (fun p => (p.1.toList, p.2.toList))

/-- `GOOD_WIND_PHRASES`. -/
def GOOD_WIND_PHRASES : List PyStr :=
  ["wind energy conversion", "wind turbine", "wind tower"].map String.toList

/-- Python `s.split(" ")` helper carrying the current token. -/
def pySplitSpaceAux : PyStr → PyStr → List PyStr
  | [], cur => [cur.reverse]
  | c :: rest, cur =>
      if c = ' ' then cur.reverse :: pySplitSpaceAux rest []
      else pySplitSpaceAux rest (c :: cur)

/-- Python `s.split(" ")`. -/
def pySplitSpace (s : PyStr) : List PyStr := pySplitSpaceAux s []

/-- The replacement loop of `_convert_to_heuristics_text`: strip every
`NOT_WIND_WORDS` entry, in source order, by `text.replace(word, "")`. -/
def stripLookAlikes (t : PyStr) : PyStr :=
  NOT_WIND_WORDS.foldl (fun acc w => pyReplace acc w []) t

/-- `_convert_to_heuristics_text`: casefold (abstracted as `cf`), then
strip the look-alike words. -/
def convertToHeuristicsText (cf : PyStr → PyStr) (t : PyStr) : PyStr :=
  stripLookAlikes (cf t)

/-- `_count_single_keyword_matches`: number of `GOOD_WIND_KEYWORDS`
contained in the text. -/
def countSingleKeywordMatches (t : PyStr) : Nat :=
  GOOD_WIND_KEYWORDS.countP (fun k => pyContains t k)

/-- The context loop of `_count_acronym_matches`: for each context in
order, count the contained formatted acronyms; the first context with a
positive count wins (the loop breaks), otherwise the result is 0. -/
def countAcronymMatchesAux (t : PyStr) : List (PyStr × PyStr) → Nat
  | [] => 0
  | ctx :: rest =>
      let c := GOOD_WIND_ACRONYMS.countP
        (fun a => pyContains t (ctx.1 ++ a ++ ctx.2))
      if 0 < c then c else countAcronymMatchesAux t rest

/-- `_count_acronym_matches`. -/
def countAcronymMatches (t : PyStr) : Nat :=
  countAcronymMatchesAux t GOOD_ACRONYM_CONTEXTS

/-- `_count_phrase_matches`: a phrase matches when every word of
`phrase.split(" ")` is contained in the text. -/
def countPhraseMatches (t : PyStr) : Nat :=
  GOOD_WIND_PHRASES.countP
    (fun ph => (pySplitSpace ph).all (fun w => pyContains t w))

/-- `possibly_mentions_wind(text, match_count_threshold)`
(`src/compass/extraction/wind/document_validation.py`): true iff the
total number of keyword, acronym and phrase matches of the heuristics
text strictly exceeds the threshold. -/
def possiblyMentionsWind (cf : PyStr → PyStr) (text : PyStr)
    (matchCountThreshold : Nat) : Bool :=
  let h := convertToHeuristicsText cf text
  decide (matchCountThreshold <
    countSingleKeywordMatches h + countAcronymMatches h + countPhraseMatches h)

/-- First token of a two-token blacklist word (text before the space). -/
def tok1 (w : PyStr) : PyStr := w.takeWhile (fun c => !(c = ' '))

/-- Second token of a two-token blacklist word (text after the space). -/
def tok2 (w : PyStr) : PyStr := (w.dropWhile (fun c => !(c = ' '))).tail

/-- The fragment universe of the look-alike stripping loop: on a
space-separated concatenation of `NOT_WIND_WORDS`, every intermediate
per-fragment residue stays in this set (each word is eventually deleted
whole, except that deleting `"winds"` out of `"windshield"` leaves
`"hield"`). -/
def FRAGS : List PyStr := NOT_WIND_WORDS ++ ["hield".toList, []]

/-- The characters that can survive the stripping of a blacklist-only
text: spaces and the residue `"hield"`. -/
def allowedChars : List Char := [' ', 'h', 'i', 'e', 'l', 'd']

/-! Basic lemmas about the Python string primitives. -/

theorem pyContains_iff_occurs (t p : PyStr) : pyContains t p = true ↔ p <:+: t := by
  induction t with
  | nil =>
    simp [pyContains, List.isPrefixOf_iff_prefix]
  | cons c ts ih =>
    simp only [pyContains, Bool.or_eq_true, List.isPrefixOf_iff_prefix, ih,
      List.infix_cons_iff]

theorem pyContains_eq_false_of_missing_char {t p : PyStr} {c : Char}
    (hc : c ∈ p) (ht : c ∉ t) : pyContains t p = false := by
  rw [Bool.eq_false_iff]
  intro h
  exact ht ((pyContains_iff_occurs t p).1 h |>.subset hc)

theorem pyReplaceAux_fuel_irrel :
    ∀ (fuel fuel' : Nat) (t p r : PyStr), t.length ≤ fuel → t.length ≤ fuel' →
      pyReplaceAux fuel t p r = pyReplaceAux fuel' t p r := by
  intro fuel
  induction fuel with
  | zero =>
    intro fuel' t p r h _
    have : t = [] := List.eq_nil_of_length_eq_zero (Nat.le_zero.1 h)
    subst this
    cases fuel' <;> rfl
  | succ f ih =>
    intro fuel' t p r h h'
    cases t with
    | nil => cases fuel' <;> rfl
    | cons c ts =>
      cases fuel' with
      | zero => simp at h'
      | succ f' =>
        simp only [pyReplaceAux]
        simp only [List.length_cons] at h h'
        split
        · have hd : (ts.drop (p.length - 1)).length ≤ ts.length := by
            simp only [List.length_drop]
            omega
          rw [ih f' (ts.drop (p.length - 1)) p r (le_trans hd (by omega))
            (le_trans hd (by omega))]
        · rw [ih f' ts p r (by omega) (by omega)]

theorem pyReplace_nil (p r : PyStr) : pyReplace [] p r = [] := rfl

theorem pyReplace_cons (c : Char) (ts p r : PyStr) :
    pyReplace (c :: ts) p r =
      if p.isPrefixOf (c :: ts) then r ++ pyReplace (ts.drop (p.length - 1)) p r
      else c :: pyReplace ts p r := by
  show pyReplaceAux (ts.length + 1) (c :: ts) p r = _
  simp only [pyReplaceAux]
  split
  · rw [pyReplaceAux_fuel_irrel ts.length (ts.drop (p.length - 1)).length
      (ts.drop (p.length - 1)) p r (by simp only [List.length_drop]; omega)
      (le_refl _)]
    rfl
  · rfl

theorem pyReplace_of_not_contains {t p : PyStr} (r : PyStr)
    (h : pyContains t p = false) : pyReplace t p r = t := by
  induction t with
  | nil => exact pyReplace_nil p r
  | cons c ts ih =>
    simp only [pyContains, Bool.or_eq_false_iff] at h
    rw [pyReplace_cons, if_neg (by simp [h.1]), ih h.2]

/-! Claim C1: output column order and the quantitative split. -/

/-- C1 counterexample: `quantitative_ordinances.csv` does not carry the
column order the specification states; `QUANT_OUT_COLS` has `county`
before `state` and no `subdivision` or `jurisdiction_type` columns. -/
theorem quant_out_cols_ne_spec_order :
    QUANT_OUT_COLS ≠
      ["state", "county", "subdivision", "jurisdiction_type", "FIPS",
       "feature", "value", "units", "adder", "min_dist", "max_dist",
       "summary", "ord_year", "last_updated", "section", "source"] := by
  decide

/-- C1 (amended): `quantitative_ordinances.csv` has its columns in the
fixed order `county, state, FIPS, feature, value, units, adder,
min_dist, max_dist, summary, ord_year, last_updated, section, source`
(and the qualitative CSV in the fixed order `county, state, FIPS,
feature, summary, ord_year, last_updated, section, source`), and for
every aggregated result table the split by the `quantitative` flag is
total and disjoint: every row is written to exactly one of the
quantitative or qualitative CSVs. -/
theorem quant_split_total_disjoint :
    (QUANT_OUT_COLS =
      ["county", "state", "FIPS", "feature", "value", "units", "adder",
       "min_dist", "max_dist", "summary", "ord_year", "last_updated",
       "section", "source"]) ∧
    (QUAL_OUT_COLS =
      ["county", "state", "FIPS", "feature", "summary", "ord_year",
       "last_updated", "section", "source"]) ∧
    ∀ rows : List OrdRow,
      List.Perm ((saveDb rows).1 ++ (saveDb rows).2) rows ∧
      (∀ r ∈ (saveDb rows).1, r.quantitative = false) ∧
      (∀ r ∈ (saveDb rows).2, r.quantitative = true) ∧
      (∀ r ∈ rows,
        (r ∈ (saveDb rows).1 ↔ r.quantitative = false) ∧
        (r ∈ (saveDb rows).2 ↔ r.quantitative = true)) := by
  refine ⟨by decide, by decide, fun rows => ⟨?_, ?_, ?_, ?_⟩⟩
  · simpa [saveDb] using List.filter_append_perm (fun r => !r.quantitative) rows
  · intro r hr
    simpa using (List.mem_filter.1 hr).2
  · intro r hr
    simpa using (List.mem_filter.1 hr).2
  · intro r hr
    constructor
    · constructor
      · intro h
        simpa using (List.mem_filter.1 h).2
      · intro h
        exact List.mem_filter.2 ⟨hr, by simp [h]⟩
    · constructor
      · intro h
        simpa using (List.mem_filter.1 h).2
      · intro h
        exact List.mem_filter.2 ⟨hr, by simp [h]⟩

/-- C1 witness: the split evaluated on a concrete two-row table. -/
theorem quant_split_witness :
    (⟨PyVal.str "A", PyVal.str "B", PyVal.none, PyVal.none, PyVal.none,
      PyVal.none, PyVal.none, PyVal.none, PyVal.none, PyVal.none,
      PyVal.none, PyVal.none, PyVal.none, PyVal.none, true⟩ : OrdRow) ∈
      (saveDb
        [⟨PyVal.str "A", PyVal.str "B", PyVal.none, PyVal.none, PyVal.none,
          PyVal.none, PyVal.none, PyVal.none, PyVal.none, PyVal.none,
          PyVal.none, PyVal.none, PyVal.none, PyVal.none, true⟩]).2 := by
  exact (((quant_split_total_disjoint.2.2 _).2.2.2 _ (by simp)).2).mpr rfl

/-! Claim C5: merge_overlapping_texts splice arithmetic. -/

/-- C5: at `text_chunks = ["abc", "bcX"]`, `n = 2`, the first `n`
characters of the successor (`"bc"`) are found at index 1 of the last
`2n` characters of `"abc"`, and the code then drops
`2*n - 1 = 3` characters from the successor, returning `"abc"` and
losing the non-overlapping `"X"`; splicing at the match with only the
overlapping prefix removed would return `"abcX"`. -/
theorem merge_overlapping_drops_text :
    mergeOverlappingTexts ["abc".toList, "bcX".toList] 2 = "abc".toList ∧
    mergeOverlappingTexts ["abc".toList, "bcX".toList] 2 ≠ "abcX".toList := by
  constructor
  · rfl
  · decide

/-! Claim C7: the empirical adder clamp. -/

/-- C7: in the empirical post-processing of the aggregated ordinance
table, every `adder` strictly greater than 250 is replaced by null,
while an `adder` equal to 250 — and any value at or below 250, and any
null — leaves the row entirely unchanged. -/
theorem empirical_adjustments_adder_clamp :
    ∀ rows : List OrdValRow,
      List.Forall₂ (fun r r' =>
        (∀ a, r.adder = some a → 250 < a → r' = { r with adder := Option.none }) ∧
        (∀ a, r.adder = some a → a ≤ 250 → r' = r) ∧
        (r.adder = Option.none → r' = r))
        rows (empiricalAdjustments rows) := by
  intro rows
  induction rows with
  | nil => exact List.Forall₂.nil
  | cons r rest ih =>
    refine List.Forall₂.cons ⟨?_, ?_, ?_⟩ ih
    · intro a ha hgt
      simp [empiricalAdjustments, ha, hgt]
    · intro a ha hle
      simp [empiricalAdjustments, ha, not_lt_of_le hle]
    · intro ha
      simp [empiricalAdjustments, ha]

/-! Claim C8: Jurisdiction equality and hashing. -/

theorem pyCasefold_append (cf : Char → List Char) (a b : PyStr) :
    pyCasefold cf (a ++ b) = pyCasefold cf a ++ pyCasefold cf b :=
  List.flatMap_append a b cf

/-- C8: jurisdiction equality is case-insensitive — two jurisdictions
compare equal iff their names and states agree under casefolding and
their parish flags are equal — and hashing agrees with equality. -/
theorem jurisdiction_eq_iff_and_hash_agrees :
    ∀ (cf : Char → List Char) (hashStr : PyStr → Int) (a b : Jurisdiction),
      (jurisdictionEq cf a b = true ↔
        (pyCasefold cf a.name = pyCasefold cf b.name ∧
         pyCasefold cf a.state = pyCasefold cf b.state ∧
         a.is_parish = b.is_parish)) ∧
      (jurisdictionEq cf a b = true →
        jurisdictionHash cf hashStr a = jurisdictionHash cf hashStr b) := by
  intro cf hashStr a b
  have hiff : jurisdictionEq cf a b = true ↔
      (pyCasefold cf a.name = pyCasefold cf b.name ∧
       pyCasefold cf a.state = pyCasefold cf b.state ∧
       a.is_parish = b.is_parish) := by
    simp [jurisdictionEq, Bool.and_eq_true, and_assoc]
  refine ⟨hiff, fun h => ?_⟩
  obtain ⟨hn, hs, hp⟩ := hiff.1 h
  unfold jurisdictionHash fullName
  congr 1
  have hloc : locId a = locId b := by unfold locId; rw [hp]
  have hcons : ∀ (c : Char) (l : PyStr),
      pyCasefold cf (c :: l) = cf c ++ pyCasefold cf l := by
    intro c l
    rfl
  rw [pyCasefold_append, pyCasefold_append, hn, hloc, hcons, hcons,
    pyCasefold_append, pyCasefold_append, hcons, hcons, hcons, hcons, hs]

/-- C8 witness: two concrete jurisdictions differing only in letter case
compare equal and hash equal (with ASCII lowering as the character fold
and string length as the hash). -/
theorem jurisdiction_hash_witness :
    jurisdictionEq (fun c => [c.toLower])
        ⟨"Boulder".toList, "Colorado".toList, Option.none, false⟩
        ⟨"BOULDER".toList, "colorado".toList, some 1, false⟩ = true ∧
      jurisdictionHash (fun c => [c.toLower]) (fun s => (s.length : Int))
        ⟨"Boulder".toList, "Colorado".toList, Option.none, false⟩ =
      jurisdictionHash (fun c => [c.toLower]) (fun s => (s.length : Int))
        ⟨"BOULDER".toList, "colorado".toList, some 1, false⟩ := by
  have h : jurisdictionEq (fun c => [c.toLower])
      ⟨"Boulder".toList, "Colorado".toList, Option.none, false⟩
      ⟨"BOULDER".toList, "colorado".toList, some 1, false⟩ = true := by decide
  exact ⟨h,
    (jurisdiction_eq_iff_and_hash_agrees (fun c => [c.toLower])
      (fun s => (s.length : Int)) _ _).2 h⟩

/-! Claim C2: chat transcript invariant. -/

theorem chatCall_none_rollback (ms : List ChatMsg) (content : String) :
    chatCall ms content Option.none = (ms, Option.none) := by
  simp [chatCall]

theorem reachable_wf_odd (ms : List ChatMsg) (h : ReachableTranscript ms) :
    WellFormedTranscript ms ∧ ms.length % 2 = 1 := by
  induction h with
  | init sysMsg =>
    refine ⟨⟨by simp [chatInit], ?_⟩, rfl⟩
    intro i hi
    simp only [chatInit, List.length_singleton] at hi
    interval_cases i
    simp [chatInit]
  | step ms content resp hr ih =>
    obtain ⟨⟨hne, hrole⟩, hodd⟩ := ih
    cases resp with
    | none =>
      have : (chatCall ms content Option.none).1 = ms := by
        rw [chatCall_none_rollback]
      rw [this]
      exact ⟨⟨hne, hrole⟩, hodd⟩
    | some r =>
      have h1 : (chatCall ms content (some r)).1 =
          ms ++ [(Role.user, content), (Role.assistant, r)] := by
        simp [chatCall]
      rw [h1]
      have hlen : (ms ++ [(Role.user, content), (Role.assistant, r)]).length =
          ms.length + 2 := by simp
      have hmsne : 0 < ms.length := List.length_pos.2 hne
      refine ⟨⟨by simp, ?_⟩, by omega⟩
      intro i hi
      rw [hlen] at hi
      simp only [List.get_eq_getElem]
      rcases lt_trichotomy i ms.length with hlt | heq | hgt
      · rw [List.getElem_append_left hlt]
        have := hrole i hlt
        simpa using this
      · subst heq
        rw [List.getElem_append_right (le_refl _)]
        simp only [Nat.sub_self]
        have h0 : ms.length ≠ 0 := by omega
        have h1 : ms.length % 2 = 1 := hodd
        simp [if_neg h0, h1, hne]
      · have hge : ms.length ≤ i := le_of_lt hgt
        rw [List.getElem_append_right hge]
        have hieq : i = ms.length + 1 := by omega
        subst hieq
        have : ms.length + 1 - ms.length = 1 := by omega
        simp only [this]
        have h0 : ms.length + 1 ≠ 0 := by omega
        have h1 : (ms.length + 1) % 2 = 0 := by omega
        simp [if_neg h0, h1, hne]

/-- C2: every reachable `ChatLLMCaller` transcript is well formed
(message 0 is the system message and roles alternate user/assistant by
parity afterwards, so no other message is a system message), `call`
preserves the invariant (reachability is closed under `call`), and when
the service returns no response the appended user message is rolled
back, leaving the transcript exactly as it was. -/
theorem chat_transcript_invariant :
    ∀ ms : List ChatMsg, ReachableTranscript ms →
      WellFormedTranscript ms ∧
      (∀ i (h : i < ms.length), 0 < i → (ms.get ⟨i, h⟩).1 ≠ Role.system) ∧
      (∀ content, chatCall ms content Option.none = (ms, Option.none)) := by
  intro ms h
  obtain ⟨⟨hne, hrole⟩, _⟩ := reachable_wf_odd ms h
  refine ⟨⟨hne, hrole⟩, ?_, fun content => chatCall_none_rollback ms content⟩
  intro i hi hpos
  rw [hrole i hi]
  have h0 : i ≠ 0 := by omega
  rcases Nat.mod_two_eq_zero_or_one i with h2 | h2 <;> simp [h0, h2]

/-- C2 witness: the invariant evaluated on a concrete transcript after
one successful call, via the claim theorem. -/
theorem chat_transcript_witness :
    WellFormedTranscript (chatCall (chatInit "sys") "hello" (some "hi")).1 ∧
    chatCall (chatCall (chatInit "sys") "hello" (some "hi")).1 "next"
        Option.none =
      ((chatCall (chatInit "sys") "hello" (some "hi")).1, Option.none) := by
  have hreach : ReachableTranscript (chatCall (chatInit "sys") "hello" (some "hi")).1 :=
    ReachableTranscript.step _ "hello" (some "hi") (ReachableTranscript.init "sys")
  obtain ⟨hwf, _, hroll⟩ := chat_transcript_invariant _ hreach
  exact ⟨hwf, hroll "next"⟩

/-! Claim C3: the structured caller. -/

/-- C3 counterexample: for the system message `"Never use JSON format"`
the literal return-JSON instruction is missing, yet nothing is appended,
because the code only checks for the substring `"JSON format"`.  So
"appends the literal return-JSON instruction iff it is missing" fails. -/
theorem json_instruction_missing_but_not_appended :
    addJsonInstructions ("Never use JSON format".toList) =
        "Never use JSON format".toList ∧
      pyContains ("Never use JSON format".toList) JSON_INSTRUCTIONS = false := by
  constructor
  · have h : pyContains ("Never use JSON format".toList)
        JSON_FORMAT_MARKER = true := by decide
    simp only [addJsonInstructions, h, if_true]
  · decide

/-- C3 (amended): `StructuredLLMCaller.call` appends the literal
return-JSON instruction to the system message if and only if the system
message does not contain the substring `"JSON format"`, and it returns
the empty mapping (never raising) whenever the LLM service returns no
response (or a falsy empty response) or the response — after stripping
triple-backtick fences and a leading `json` language tag — fails to
parse as JSON; otherwise it returns the parsed mapping. -/
theorem structured_call_props :
    ∀ {α : Type} (emptyDict : α) (parse : PyStr → Option α) (sysMsg : PyStr)
      (resp : Option PyStr),
      ((addJsonInstructions sysMsg = sysMsg) ↔
        pyContains sysMsg JSON_FORMAT_MARKER = true) ∧
      (pyContains sysMsg JSON_FORMAT_MARKER = false →
        addJsonInstructions sysMsg =
          sysMsg ++ '\n' :: (JSON_INSTRUCTIONS ++ ['.'])) ∧
      ((structuredCall emptyDict parse sysMsg resp).1 =
        addJsonInstructions sysMsg) ∧
      (resp = Option.none →
        (structuredCall emptyDict parse sysMsg resp).2 = emptyDict) ∧
      (resp = some [] →
        (structuredCall emptyDict parse sysMsg resp).2 = emptyDict) ∧
      (∀ r, resp = some r → r ≠ [] → parse (jsonPreprocess r) = Option.none →
        (structuredCall emptyDict parse sysMsg resp).2 = emptyDict) ∧
      (∀ r d, resp = some r → r ≠ [] → parse (jsonPreprocess r) = some d →
        (structuredCall emptyDict parse sysMsg resp).2 = d) := by
  intro α emptyDict parse sysMsg resp
  refine ⟨?_, ?_, rfl, ?_, ?_, ?_, ?_⟩
  · constructor
    · intro heq
      by_contra hnc
      rw [Bool.not_eq_true] at hnc
      have : addJsonInstructions sysMsg =
          sysMsg ++ '\n' :: (JSON_INSTRUCTIONS ++ ['.']) := by
        simp only [addJsonInstructions, hnc, Bool.false_eq_true, if_false]
      rw [this] at heq
      have := congrArg List.length heq
      simp [JSON_INSTRUCTIONS] at this
    · intro hc
      simp only [addJsonInstructions, hc, if_true]
  · intro hnc
    simp only [addJsonInstructions, hnc, Bool.false_eq_true, if_false]
  · intro h
    subst h
    rfl
  · intro h
    subst h
    rfl
  · intro r h hne hparse
    subst h
    simp [structuredCall, hne, llmResponseAsJson, hparse]
  · intro r d h hne hparse
    subst h
    simp [structuredCall, hne, llmResponseAsJson, hparse]

/-- C3 witness: the amended behaviour evaluated at concrete inputs via
the claim theorem: a failing parser yields the empty dictionary. -/
theorem structured_call_witness :
    (structuredCall ([] : PyDict) (fun _ => Option.none) ("hi".toList)
      (some ("x".toList))).2 = ([] : PyDict) :=
  (structured_call_props ([] : PyDict) (fun _ => Option.none) ("hi".toList)
      (some ("x".toList))).2.2.2.2.2.1
    ("x".toList) rfl (by decide) rfl

/-! Claim C6: ranking of surviving documents. -/

/-- C6 counterexample: with two documents equal in every component
except the validator scores, the code forwards the document with the
higher `CountyNameValidator` score (third tuple slot), which is *not*
maximal under the spec's claimed tuple
`(year, is_pdf, jurisdiction_score, content_score, -text_length, month,
day)` — the other document beats it there. -/
theorem sort_docs_ranking_counterexample :
    sortFinalOrdDocs
        [⟨2020, 1, 1, true, 0, 1, 1, 100⟩, ⟨2020, 1, 1, true, 1, 0, 0, 100⟩] =
      some ⟨2020, 1, 1, true, 1, 0, 0, 100⟩ ∧
    specRankingKey (⟨2020, 1, 1, true, 1, 0, 0, 100⟩ : ElmDoc) <
      specRankingKey (⟨2020, 1, 1, true, 0, 1, 1, 100⟩ : ElmDoc) := by
  constructor
  · decide
  · decide

theorem foldl_best_spec (ds : List ElmDoc) :
    ∀ acc : ElmDoc,
      (ds.foldl (fun best x =>
          if ordDocSortingKey best < ordDocSortingKey x then x else best) acc = acc ∨
        ds.foldl (fun best x =>
          if ordDocSortingKey best < ordDocSortingKey x then x else best) acc ∈ ds) ∧
      ordDocSortingKey acc ≤ ordDocSortingKey (ds.foldl (fun best x =>
        if ordDocSortingKey best < ordDocSortingKey x then x else best) acc) ∧
      ∀ x ∈ ds, ordDocSortingKey x ≤ ordDocSortingKey (ds.foldl (fun best x =>
        if ordDocSortingKey best < ordDocSortingKey x then x else best) acc) := by
  induction ds with
  | nil => exact fun acc => ⟨Or.inl rfl, le_refl _, by simp⟩
  | cons y ds ih =>
    intro acc
    simp only [List.foldl_cons]
    set acc' := if ordDocSortingKey acc < ordDocSortingKey y then y else acc with hacc'
    obtain ⟨hmem, hle, hall⟩ := ih acc'
    have hacc_le : ordDocSortingKey acc ≤ ordDocSortingKey acc' := by
      rw [hacc']
      split
      · exact le_of_lt (by assumption)
      · exact le_refl _
    have hy_le : ordDocSortingKey y ≤ ordDocSortingKey acc' := by
      rw [hacc']
      split
      · exact le_refl _
      · exact le_of_not_lt (by assumption)
    refine ⟨?_, le_trans hacc_le hle, ?_⟩
    · rcases hmem with h | h
      · rw [h, hacc']
        split
        · exact Or.inr (List.mem_cons_self _ _)
        · exact Or.inl rfl
      · exact Or.inr (List.mem_cons_of_mem _ h)
    · intro x hx
      rcases List.mem_cons.1 hx with rfl | hx
      · exact le_trans hy_le hle
      · exact hall x hx

/-- C6 (amended): after the location and content filters, the surviving
documents are ranked descending by the code's tuple `(year, is_pdf,
county_name_score, county_jurisdiction_score, -text_length, month,
day)`, and the document forwarded downstream is a maximal element of the
surviving list under that ordering. -/
theorem sort_final_ord_docs_forwards_max :
    ∀ (d : ElmDoc) (ds : List ElmDoc),
      ∃ b, sortFinalOrdDocs (d :: ds) = some b ∧ b ∈ d :: ds ∧
        ∀ x ∈ d :: ds, ordDocSortingKey x ≤ ordDocSortingKey b := by
  intro d ds
  obtain ⟨hmem, hle, hall⟩ := foldl_best_spec ds d
  refine ⟨_, rfl, ?_, ?_⟩
  · rcases hmem with h | h
    · rw [h]
      exact List.mem_cons_self _ _
    · exact List.mem_cons_of_mem _ h
  · intro x hx
    rcases List.mem_cons.1 hx with rfl | hx
    · exact hle
    · exact hall x hx

/-! Machinery about `pyReplace`: occurrences never survive a global
replacement (under non-overlap side conditions on the pattern and the
replacement), and replacement never creates occurrences of an unrelated
pattern.  Used for claims C10 and C9. -/

theorem prefix_append_split {p a b : PyStr} (h : p <+: a ++ b) :
    p <+: a ∨ (a <+: p ∧ p.drop a.length <+: b) := by
  rcases le_or_lt p.length a.length with hle | hlt
  · exact Or.inl ((List.isPrefix_append_of_length hle).1 h)
  · right
    obtain ⟨t, ht⟩ := h
    have htake : a = p.take a.length := by
      have h1 : (p ++ t).take a.length = (a ++ b).take a.length := by rw [ht]
      rw [List.take_append_of_le_length (le_of_lt hlt), List.take_left] at h1
      exact h1.symm
    constructor
    · exact ⟨p.drop a.length, by nth_rewrite 1 [htake]; exact List.take_append_drop _ _⟩
    · refine ⟨t, ?_⟩
      have h1 : (p ++ t).drop a.length = (a ++ b).drop a.length := by rw [ht]
      rwa [List.drop_append_of_le_length (le_of_lt hlt), List.drop_left] at h1

theorem infix_append_split {p a b : PyStr} (h : p <:+: a ++ b) :
    p <:+: a ∨ p <:+: b ∨
      ∃ s t, p = s ++ t ∧ s ≠ [] ∧ t ≠ [] ∧ s <:+ a ∧ t <+: b := by
  induction a with
  | nil => exact Or.inr (Or.inl (by simpa using h))
  | cons c a' ih =>
    rw [List.cons_append, List.infix_cons_iff] at h
    rcases h with hpre | hinf
    · cases p with
      | nil => exact Or.inl (List.nil_infix)
      | cons q qtl =>
        rw [List.cons_prefix_cons] at hpre
        obtain ⟨rfl, hq⟩ := hpre
        rcases prefix_append_split hq with h1 | ⟨h2, h3⟩
        · exact Or.inl (List.IsPrefix.isInfix (List.cons_prefix_cons.2 ⟨rfl, h1⟩))
        · by_cases ht : qtl.drop a'.length = []
          · have hlen : a'.length = qtl.length := by
              have h4 := h2.length_le
              have h5 : qtl.length - a'.length = 0 := by
                have := congrArg List.length ht
                simpa using this
              omega
            have : a' = qtl := h2.eq_of_length hlen
            subst this
            exact Or.inl List.infix_rfl
          · obtain ⟨u, hu⟩ := h2
            refine Or.inr (Or.inr ⟨q :: a', qtl.drop a'.length, ?_, by simp, ht,
              List.suffix_refl _, h3⟩)
            have hdrop : qtl.drop a'.length = u := by
              rw [← hu, List.drop_left]
            rw [List.cons_append]
            rw [hdrop, hu]
    · rcases ih hinf with h1 | h2 | ⟨s, t, hst, hs, ht, hsa, htb⟩
      · exact Or.inl (List.infix_cons h1)
      · exact Or.inr (Or.inl h2)
      · exact Or.inr (Or.inr ⟨s, t, hst, hs, ht,
          hsa.trans (List.suffix_cons c a'), htb⟩)

theorem pyReplace_head_transfer {ts p : PyStr} {rh c : Char} {rtl out' : PyStr}
    (hout : pyReplace ts p (rh :: rtl) = c :: out') (hc : c ≠ rh) :
    ∃ ts', ts = c :: ts' ∧ out' = pyReplace ts' p (rh :: rtl) := by
  cases ts with
  | nil =>
    rw [pyReplace_nil] at hout
    exact absurd hout (by simp)
  | cons d ts' =>
    rw [pyReplace_cons] at hout
    split at hout
    · rw [List.cons_append] at hout
      injection hout with h1 _
      exact absurd h1.symm hc
    · injection hout with h1 h2
      subst h1
      exact ⟨ts', rfl, h2.symm⟩

theorem prefix_transfer_pyReplace (p : PyStr) (rh : Char) (rtl : PyStr) :
    ∀ q : PyStr, (∀ c ∈ q, c ≠ rh) →
      ∀ ts, q <+: pyReplace ts p (rh :: rtl) → q <+: ts := by
  intro q
  induction q with
  | nil =>
    intro _ ts _
    exact List.nil_prefix
  | cons c q' ih =>
    intro hq ts hpre
    obtain ⟨t, ht⟩ := hpre
    have hout : pyReplace ts p (rh :: rtl) = c :: (q' ++ t) := by
      rw [← ht]
      simp
    obtain ⟨ts', hts, hout'⟩ := pyReplace_head_transfer hout (hq c (by simp))
    have hq' : q' <+: pyReplace ts' p (rh :: rtl) := by
      rw [← hout']
      exact ⟨t, rfl⟩
    have hrec := ih (fun x hx => hq x (by simp [hx])) ts' hq'
    rw [hts]
    exact List.cons_prefix_cons.2 ⟨rfl, hrec⟩

theorem pyReplace_no_occurrence (p : PyStr) (rh : Char) (rtl : PyStr)
    (hp : p ≠ [])
    (hA : ¬ p <:+: (rh :: rtl))
    (hB : ∀ s : PyStr, s <:+ (rh :: rtl) → s ≠ [] → ¬ s <+: p)
    (hD : ∀ c ∈ p.tail, c ≠ rh) :
    ∀ t, ¬ p <:+: pyReplace t p (rh :: rtl) := by
  obtain ⟨q, qtl, rfl⟩ := List.exists_cons_of_ne_nil hp
  simp only [List.tail_cons] at hD
  have main : ∀ n (t : PyStr), t.length ≤ n →
      ¬ (q :: qtl) <:+: pyReplace t (q :: qtl) (rh :: rtl) := by
    intro n
    induction n with
    | zero =>
      intro t htl hinf
      have : t = [] := List.eq_nil_of_length_eq_zero (Nat.le_zero.1 htl)
      subst this
      rw [pyReplace_nil] at hinf
      exact absurd (List.infix_nil.1 hinf) (by simp)
    | succ n ih =>
      intro t htl hinf
      cases t with
      | nil =>
        rw [pyReplace_nil] at hinf
        exact absurd (List.infix_nil.1 hinf) (by simp)
      | cons c ts =>
        rw [pyReplace_cons] at hinf
        by_cases hpre : (q :: qtl).isPrefixOf (c :: ts)
        · rw [if_pos hpre] at hinf
          rcases infix_append_split hinf with h1 | h2 | ⟨s, u, hsu, hs, _, hsa, _⟩
          · exact hA h1
          · have hlen : (ts.drop ((q :: qtl).length - 1)).length ≤ n := by
              simp only [List.length_drop]
              simp only [List.length_cons] at htl
              omega
            exact ih _ hlen h2
          · exact hB s hsa hs ⟨u, hsu.symm⟩
        · rw [if_neg hpre] at hinf
          rw [List.infix_cons_iff] at hinf
          rcases hinf with h1 | h2
          · rw [List.cons_prefix_cons] at h1
            obtain ⟨rfl, hq1⟩ := h1
            have htr := prefix_transfer_pyReplace (q :: qtl) rh rtl qtl hD ts hq1
            exact hpre (List.isPrefixOf_iff_prefix.2
              (List.cons_prefix_cons.2 ⟨rfl, htr⟩))
          · exact ih ts (by simp only [List.length_cons] at htl; omega) h2
  exact fun t => main t.length t (le_refl _)

theorem pyReplace_preserves_no_occurrence (q p : PyStr) (rh : Char) (rtl : PyStr)
    (hq : q ≠ [])
    (hA : ¬ q <:+: (rh :: rtl))
    (hB : ∀ s : PyStr, s <:+ (rh :: rtl) → s ≠ [] → ¬ s <+: q)
    (hD : ∀ c ∈ q.tail, c ≠ rh) :
    ∀ t, ¬ q <:+: t → ¬ q <:+: pyReplace t p (rh :: rtl) := by
  obtain ⟨w, wtl, rfl⟩ := List.exists_cons_of_ne_nil hq
  simp only [List.tail_cons] at hD
  have main : ∀ n (t : PyStr), t.length ≤ n → ¬ (w :: wtl) <:+: t →
      ¬ (w :: wtl) <:+: pyReplace t p (rh :: rtl) := by
    intro n
    induction n with
    | zero =>
      intro t htl hnot hinf
      have : t = [] := List.eq_nil_of_length_eq_zero (Nat.le_zero.1 htl)
      subst this
      rw [pyReplace_nil] at hinf
      exact absurd (List.infix_nil.1 hinf) (by simp)
    | succ n ih =>
      intro t htl hnot hinf
      cases t with
      | nil =>
        rw [pyReplace_nil] at hinf
        exact absurd (List.infix_nil.1 hinf) (by simp)
      | cons c ts =>
        rw [pyReplace_cons] at hinf
        by_cases hpre : p.isPrefixOf (c :: ts)
        · rw [if_pos hpre] at hinf
          rcases infix_append_split hinf with h1 | h2 | ⟨s, u, hsu, hs, _, hsa, _⟩
          · exact hA h1
          · have hlen : (ts.drop (p.length - 1)).length ≤ n := by
              simp only [List.length_drop]
              simp only [List.length_cons] at htl
              omega
            have hsub : ¬ (w :: wtl) <:+: ts.drop (p.length - 1) := by
              intro hx
              exact hnot (hx.trans
                ((List.drop_suffix _ _).trans (List.suffix_cons c ts)).isInfix)
            exact ih _ hlen hsub h2
          · exact hB s hsa hs ⟨u, hsu.symm⟩
        · rw [if_neg hpre] at hinf
          rw [List.infix_cons_iff] at hinf
          rcases hinf with h1 | h2
          · rw [List.cons_prefix_cons] at h1
            obtain ⟨rfl, hq1⟩ := h1
            have htr := prefix_transfer_pyReplace p rh rtl wtl hD ts hq1
            exact hnot (List.IsPrefix.isInfix (List.cons_prefix_cons.2 ⟨rfl, htr⟩))
          · have hsub : ¬ (w :: wtl) <:+: ts := by
              intro hx
              exact hnot (List.infix_cons hx)
            exact ih ts (by simp only [List.length_cons] at htl; omega) hsub h2
  exact fun t hnot => main t.length t (le_refl _) hnot

/-- Bridge from a decidable scan over `tails` to the suffix side
condition of the replacement lemmas. -/
theorem suffix_check {r q : PyStr}
    (h : r.tails.all (fun s => s.isEmpty || !(s.isPrefixOf q)) = true) :
    ∀ s : PyStr, s <:+ r → s ≠ [] → ¬ s <+: q := by
  intro s hs hne hpre
  have hmem : s ∈ r.tails := (List.mem_tails s r).2 hs
  have hall := List.all_eq_true.1 h s hmem
  rw [Bool.or_eq_true] at hall
  rcases hall with h1 | h1
  · exact hne (by simpa using h1)
  · rw [Bool.not_eq_true'] at h1
    exact absurd (List.isPrefixOf_iff_prefix.2 hpre) (by simp [h1])

theorem pyContains_eq_false_iff (t p : PyStr) :
    pyContains t p = false ↔ ¬ p <:+: t := by
  rw [← pyContains_iff_occurs]
  cases h : pyContains t p <;> simp [h]

/-! Claim C10: True/False lowercasing before JSON parsing. -/

/-- C10: `llm_response_as_json` replaces every occurrence of `"True"`
and `"False"` anywhere in the response with `"true"` and `"false"`
before JSON parsing: the preprocessed string that is handed to
`json.loads` never contains `"True"` or `"False"` — occurrences inside
JSON string literals included, as the concrete example shows, so an
extracted string field that contained those words is returned with them
lowercased. -/
theorem json_preprocess_lowercases_python_bools :
    (∀ content : PyStr,
      pyContains (jsonPreprocess content) ("True".toList) = false ∧
      pyContains (jsonPreprocess content) ("False".toList) = false) ∧
    jsonPreprocess ("\x7b\"summary\": \"A True and False story\"\x7d".toList) =
      ("\x7b\"summary\": \"A true and false story\"\x7d".toList) ∧
    (∀ (α : Type) (emptyDict : α) (parse : PyStr → Option α) (content : PyStr),
      llmResponseAsJson emptyDict parse content =
        (parse (jsonPreprocess content)).getD emptyDict) := by
  refine ⟨?_, by decide, fun α emptyDict parse content => rfl⟩
  intro content
  have hTrue1 : ∀ t : PyStr,
      ¬ ("True".toList) <:+: pyReplace t ("True".toList) ('t' :: "rue".toList) :=
    pyReplace_no_occurrence ("True".toList) 't' ("rue".toList)
      (by decide) (by decide) (suffix_check (by decide)) (by decide)
  have hTrue2 : ∀ t : PyStr, ¬ ("True".toList) <:+: t →
      ¬ ("True".toList) <:+: pyReplace t ("False".toList) ('f' :: "alse".toList) :=
    pyReplace_preserves_no_occurrence ("True".toList) ("False".toList) 'f'
      ("alse".toList) (by decide) (by decide) (suffix_check (by decide)) (by decide)
  have hFalse : ∀ t : PyStr,
      ¬ ("False".toList) <:+: pyReplace t ("False".toList) ('f' :: "alse".toList) :=
    pyReplace_no_occurrence ("False".toList) 'f' ("alse".toList)
      (by decide) (by decide) (suffix_check (by decide)) (by decide)
  constructor
  · rw [pyContains_eq_false_iff]
    show ¬ ("True".toList) <:+:
      pyReplace (pyReplace _ ("True".toList) ("true".toList)) ("False".toList)
        ("false".toList)
    exact hTrue2 _ (hTrue1 _)
  · rw [pyContains_eq_false_iff]
    exact hFalse _

/-! Claim C4: the validation memo. -/

theorem find?_dictSet (d : PyDict) (k : String) (v : PyVal) :
    (dictSet d k v).find? (fun p => p.1 = k) = some (k, v) := by
  unfold dictSet
  split
  next h =>
    induction d with
    | nil => simp at h
    | cons q d ih =>
      by_cases hq : q.1 = k
      · simp only [List.map_cons, if_pos hq]
        rw [List.find?_cons_of_pos _ (by simp)]
      · simp only [List.map_cons, if_neg hq]
        rw [List.find?_cons_of_neg _ (by simp [hq])]
        rw [List.find?_cons_of_neg _ (by simp [hq])] at h
        exact ih h
  next h =>
    induction d with
    | nil =>
      simp only [List.nil_append]
      rw [List.find?_cons_of_pos _ (by simp)]
    | cons q d ih =>
      have hq : ¬ q.1 = k := by
        intro hq
        exact h (by rw [List.find?_cons_of_pos _ (by simp [hq])]; rfl)
      simp only [List.cons_append]
      rw [List.find?_cons_of_neg _ (by simp [hq])]
      apply ih
      intro h2
      apply h
      rw [List.find?_cons_of_neg _ (by simp [hq])]
      exact h2

theorem pyGet_dictSet_self (d : PyDict) (k : String) (v dflt : PyVal) :
    pyGet (dictSet d k v) k dflt = v := by
  unfold pyGet dictGet
  rw [find?_dictSet]
  rfl

theorem memGetD_set_self {l : List PyDict} {j : Nat} (d : PyDict)
    (h : j < l.length) : (l.set j d).getD j [] = d := by
  show ((l.set j d).get? j).getD [] = d
  rw [List.get?_set_eq_of_lt d h]
  rfl

theorem memGetD_set_ne {l : List PyDict} {i j : Nat} (d : PyDict)
    (h : i ≠ j) : (l.set i d).getD j [] = l.getD j [] := by
  show ((l.set i d).get? j).getD [] = (l.get? j).getD []
  rw [List.get?_set_ne d l h]

theorem scanChunks_spec (oracle : String → String → PyDict)
    (sysMsg key : String) :
    ∀ (fuel j : Nat) (st : VState) (st' : VState) (res : PyVal)
      (calls : List Nat),
      fuel ≤ j + 1 → j < st.memory.length →
      scanChunks oracle sysMsg key fuel j st = (st', res, calls) →
      st'.chunks = st.chunks ∧
      st'.memory.length = st.memory.length ∧
      (∀ i, (i < j + 1 - fuel ∨ j < i) →
        st'.memory.getD i [] = st.memory.getD i []) ∧
      (∀ i v, pyGet (st.memory.getD i []) key PyVal.none = v →
        v ≠ PyVal.none →
        i ∉ calls ∧ pyGet (st'.memory.getD i []) key PyVal.none = v) ∧
      (∀ i ∈ calls, j + 1 - fuel ≤ i ∧ i ≤ j) ∧
      (res.truthy = false → res = PyVal.bool false ∧
        ∀ i, j + 1 - fuel ≤ i → i ≤ j →
          (pyGet (st'.memory.getD i []) key PyVal.none).truthy = false) ∧
      (res.truthy = true → ∃ i, j + 1 - fuel ≤ i ∧ i ≤ j ∧
        pyGet (st'.memory.getD i []) key PyVal.none = res ∧
        ∀ i', i < i' → i' ≤ j →
          (pyGet (st'.memory.getD i' []) key PyVal.none).truthy = false) := by
  intro fuel
  induction fuel with
  | zero =>
    intro j st st' res calls _ _ heq
    simp only [scanChunks] at heq
    injection heq with h1 h23
    injection h23 with h2 h3
    subst h1
    subst h2
    subst h3
    refine ⟨rfl, rfl, fun i _ => rfl, fun i v hv hne => ⟨by simp, hv⟩,
      by simp, fun _ => ⟨rfl, fun i hi hi2 => by omega⟩,
      fun habs => by simp [PyVal.truthy] at habs⟩
  | succ fuel ih =>
    intro j st st' res calls hf hj heq
    simp only [scanChunks] at heq
    by_cases h0 : pyGet (st.memory.getD j []) key PyVal.none = PyVal.none
    · rw [if_pos h0] at heq
      by_cases hv : (pyGet (oracle sysMsg (st.chunks.getD j ""))
          key (PyVal.bool false)).truthy
      · rw [if_pos hv] at heq
        injection heq with h1 h23
        injection h23 with h2 h3
        subst h1
        subst h2
        subst h3
        refine ⟨rfl, by simp, ?_, ?_, ?_, ?_, ?_⟩
        · intro i hi
          have hne : i ≠ j := by omega
          exact memGetD_set_ne _ (Ne.symm hne)
        · intro i v hvi hvne
          have hne : i ≠ j := by
            intro hij
            subst hij
            rw [h0] at hvi
            exact hvne hvi.symm
          refine ⟨by simp [hne], ?_⟩
          show pyGet ((st.memory.set j _).getD i []) key PyVal.none = v
          rw [memGetD_set_ne _ (Ne.symm hne)]
          exact hvi
        · intro i hi
          simp only [List.mem_singleton] at hi
          subst hi
          omega
        · intro hres
          rw [hres] at hv
          simp at hv
        · intro _
          refine ⟨j, by omega, le_refl _, ?_, fun i' hi1 hi2 => by omega⟩
          show pyGet ((st.memory.set j _).getD j []) key PyVal.none = _
          rw [memGetD_set_self _ hj]
          exact pyGet_dictSet_self _ _ _ _
      · rw [if_neg hv] at heq
        rcases hnext : scanChunks oracle sysMsg key fuel (j - 1)
            (VState.mk st.chunks (st.memory.set j (dictSet (st.memory.getD j [])
              key (pyGet (oracle sysMsg (st.chunks.getD j "")) key
                (PyVal.bool false)))))
          with ⟨nst, nres, ncalls⟩
        rw [hnext] at heq
        injection heq with h1 h23
        injection h23 with h2 h3
        subst h1
        subst h2
        subst h3
        have hW2 : (VState.mk st.chunks (st.memory.set j
            (dictSet (st.memory.getD j []) key
              (pyGet (oracle sysMsg (st.chunks.getD j "")) key
                (PyVal.bool false))))).memory.length =
            st.memory.length := by
          simp
        have hWne : ∀ i, i ≠ j →
            (VState.mk st.chunks (st.memory.set j
              (dictSet (st.memory.getD j []) key
                (pyGet (oracle sysMsg (st.chunks.getD j "")) key
                  (PyVal.bool false))))).memory.getD i [] =
              st.memory.getD i [] := by
          intro i hi
          exact memGetD_set_ne _ (Ne.symm hi)
        have hWj : (VState.mk st.chunks (st.memory.set j
            (dictSet (st.memory.getD j []) key
              (pyGet (oracle sysMsg (st.chunks.getD j "")) key
                (PyVal.bool false))))).memory.getD j [] =
            dictSet (st.memory.getD j []) key
              (pyGet (oracle sysMsg (st.chunks.getD j "")) key
                (PyVal.bool false)) := by
          exact memGetD_set_self _ hj
        obtain ⟨ih1, ih2, ih3, ih4, ih5, ih6, ih7⟩ :=
          ih (j - 1) _ nst nres ncalls (by omega) (by rw [hW2]; omega) hnext
        have hnstj : nst.memory.getD j [] =
            dictSet (st.memory.getD j []) key
              (pyGet (oracle sysMsg (st.chunks.getD j "")) key
                (PyVal.bool false)) := by
          rw [ih3 j (by omega), hWj]
        refine ⟨ih1, by rw [ih2, hW2], ?_, ?_, ?_, ?_, ?_⟩
        · intro i hi
          have hij : i ≠ j := by omega
          rw [ih3 i (by omega)]
          exact hWne i hij
        · intro i v hvi hvne
          have hij : i ≠ j := by
            intro h
            subst h
            rw [h0] at hvi
            exact hvne hvi.symm
          have hstW : pyGet ((VState.mk st.chunks (st.memory.set j
              (dictSet (st.memory.getD j []) key
                (pyGet (oracle sysMsg (st.chunks.getD j "")) key
                  (PyVal.bool false))))).memory.getD i [])
              key PyVal.none = v := by
            rw [hWne i hij]
            exact hvi
          obtain ⟨hnc, hval⟩ := ih4 i v hstW hvne
          refine ⟨?_, hval⟩
          intro hmem
          rcases List.mem_cons.1 hmem with h | h
          · exact hij h
          · exact hnc h
        · intro i hi
          rcases List.mem_cons.1 hi with rfl | hi
          · omega
          · have := ih5 i hi
            omega
        · intro hres
          obtain ⟨hb, hall⟩ := ih6 hres
          refine ⟨hb, ?_⟩
          intro i h1 h2
          rcases eq_or_lt_of_le h2 with heq2 | hlt
          · subst heq2
            rw [hnstj, pyGet_dictSet_self]
            simpa using hv
          · exact hall i (by omega) (by omega)
        · intro hres
          obtain ⟨i, hi1, hi2, hival, hiafter⟩ := ih7 hres
          refine ⟨i, by omega, by omega, hival, ?_⟩
          intro i' hgt hle
          rcases eq_or_lt_of_le hle with heq2 | hlt
          · subst heq2
            rw [hnstj, pyGet_dictSet_self]
            simpa using hv
          · exact hiafter i' hgt (by omega)
    · rw [if_neg h0] at heq
      by_cases ht : (pyGet (st.memory.getD j []) key PyVal.none).truthy
      · rw [if_pos ht] at heq
        injection heq with h1 h23
        injection h23 with h2 h3
        subst h1
        subst h2
        subst h3
        refine ⟨rfl, rfl, fun i _ => rfl,
          fun i v hvi hvne => ⟨by simp, hvi⟩, by simp, ?_, ?_⟩
        · intro hres
          rw [hres] at ht
          exact absurd ht (by simp)
        · intro _
          exact ⟨j, by omega, le_refl _, rfl, fun i' h1 h2 => by omega⟩
      · rw [if_neg ht] at heq
        obtain ⟨ih1, ih2, ih3, ih4, ih5, ih6, ih7⟩ :=
          ih (j - 1) st st' res calls (by omega) (by omega) heq
        have htf : (pyGet (st.memory.getD j []) key PyVal.none).truthy = false := by
          simpa using ht
        have hjval : st'.memory.getD j [] = st.memory.getD j [] :=
          ih3 j (by omega)
        refine ⟨ih1, ih2, ?_, ?_, ?_, ?_, ?_⟩
        · intro i hi
          exact ih3 i (by omega)
        · intro i v hvi hvne
          by_cases hij : i = j
          · subst hij
            constructor
            · intro hmem
              have := ih5 i hmem
              omega
            · rw [ih3 i (by omega)]
              exact hvi
          · exact ih4 i v hvi hvne
        · intro i hi
          have := ih5 i hi
          omega
        · intro hres
          obtain ⟨hb, hall⟩ := ih6 hres
          refine ⟨hb, ?_⟩
          intro i h1 h2
          rcases eq_or_lt_of_le h2 with heq2 | hlt
          · subst heq2
            rw [hjval]
            exact htf
          · exact hall i (by omega) (by omega)
        · intro hres
          obtain ⟨i, hi1, hi2, hival, hiafter⟩ := ih7 hres
          refine ⟨i, by omega, by omega, hival, ?_⟩
          intro i' hgt hle
          rcases eq_or_lt_of_le hle with heq2 | hlt
          · subst heq2
            rw [hjval]
            exact htf
          · exact hiafter i' hgt (by omega)

/-- C4: for every `ValidationWithMemory` run of `parse_from_ind(ind,
prompt, key)` with `ind < len(text_chunks)`: once a (non-null) verdict
is stored for a `(chunk, key)` pair, the call issues no LLM call for
that pair and leaves the stored verdict unchanged; all LLM calls happen
at indices in the look-back window `ind, ind-1, …, ind-(N-1)` (clamped
at 0); the result is `False` only after the whole look-back window holds
falsy verdicts; and a truthy result is the verdict of the first (highest)
index in the window whose verdict is truthy. -/
theorem validation_memo_invariant :
    ∀ (oracle : String → String → PyDict) (fmt : String → String → String)
      (numToRecall : Nat) (st : VState) (ind : Nat) (prompt key : String)
      (st' : VState) (res : PyVal) (calls : List Nat),
      st.memory.length = st.chunks.length →
      ind < st.chunks.length →
      parseFromInd oracle fmt numToRecall st ind prompt key = (st', res, calls) →
      (∀ j v, pyGet (st.memory.getD j []) key PyVal.none = v →
        v ≠ PyVal.none →
        j ∉ calls ∧ pyGet (st'.memory.getD j []) key PyVal.none = v) ∧
      (∀ j ∈ calls, ind + 1 - numToRecall ≤ j ∧ j ≤ ind) ∧
      (res.truthy = false → res = PyVal.bool false ∧
        ∀ j, ind + 1 - numToRecall ≤ j → j ≤ ind →
          (pyGet (st'.memory.getD j []) key PyVal.none).truthy = false) ∧
      (res.truthy = true → ∃ j, ind + 1 - numToRecall ≤ j ∧ j ≤ ind ∧
        pyGet (st'.memory.getD j []) key PyVal.none = res ∧
        ∀ j', j < j' → j' ≤ ind →
          (pyGet (st'.memory.getD j' []) key PyVal.none).truthy = false) := by
  intro oracle fmt numToRecall st ind prompt key st' res calls hlen hind heq
  have hj : ind < st.memory.length := by rw [hlen]; exact hind
  obtain ⟨_, _, _, h4, h5, h6, h7⟩ :=
    scanChunks_spec oracle (fmt prompt key) key (min numToRecall (ind + 1))
      ind st st' res calls (min_le_right _ _) hj heq
  refine ⟨h4, ?_, ?_, ?_⟩
  · intro j hjc
    have := h5 j hjc
    omega
  · intro hres
    obtain ⟨hb, hall⟩ := h6 hres
    exact ⟨hb, fun j h1 h2 => hall j (by omega) h2⟩
  · intro hres
    obtain ⟨j, h1, h2, h3, h4'⟩ := h7 hres
    exact ⟨j, by omega, h2, h3, h4'⟩

/-- C4 witness: a concrete run over two chunks with a stored falsy
verdict at chunk 0: the run issues its single LLM call at chunk 1 only,
and the stored verdict at chunk 0 is untouched. -/
theorem validation_memo_witness :
    (0 : Nat) ∉ [1] ∧
      pyGet (((parseFromInd (fun _ _ => [("k", PyVal.bool false)])
          (fun p _ => p) 2
          ⟨["a", "b"], [[("k", PyVal.bool false)], []]⟩ 1 "p" "k").1).memory.getD 0 [])
        "k" PyVal.none = PyVal.bool false := by
  have h := (validation_memo_invariant (fun _ _ => [("k", PyVal.bool false)])
      (fun p _ => p) 2 ⟨["a", "b"], [[("k", PyVal.bool false)], []]⟩ 1 "p" "k"
      (⟨["a", "b"], [[("k", PyVal.bool false)], [("k", PyVal.bool false)]]⟩ : VState)
      (PyVal.bool false) [1] (by decide) (by decide) (by decide)).1
      0 (PyVal.bool false) (by decide) (by decide)
  have hst : (parseFromInd (fun _ _ => [("k", PyVal.bool false)])
      (fun p _ => p) 2
      ⟨["a", "b"], [[("k", PyVal.bool false)], []]⟩ 1 "p" "k").1 =
      (⟨["a", "b"], [[("k", PyVal.bool false)], [("k", PyVal.bool false)]]⟩ : VState) := by
    decide
  rw [hst]
  exact h

/-! Claim C9: machinery for distributing the look-alike stripping over a
space-separated concatenation. -/

theorem intercalate_nil (sep : PyStr) : List.intercalate sep [] = [] := by
  simp [List.intercalate]

theorem intercalate_one (sep x : PyStr) : List.intercalate sep [x] = x := by
  simp [List.intercalate]

theorem intercalate_cons₂ (sep x y : PyStr) (t : List PyStr) :
    List.intercalate sep (x :: y :: t) =
      x ++ sep ++ List.intercalate sep (y :: t) := by
  simp [List.intercalate, List.intersperse]

theorem replace_append (p r : PyStr) :
    ∀ (x y : PyStr),
      (∀ b : PyStr, b <:+ x → b ≠ [] → b.length < p.length → ¬ p <+: (b ++ y)) →
      pyReplace (x ++ y) p r = pyReplace x p r ++ pyReplace y p r := by
  have main : ∀ (n : Nat) (x y : PyStr), x.length ≤ n →
      (∀ b : PyStr, b <:+ x → b ≠ [] → b.length < p.length → ¬ p <+: (b ++ y)) →
      pyReplace (x ++ y) p r = pyReplace x p r ++ pyReplace y p r := by
    intro n
    induction n with
    | zero =>
      intro x y hx _
      have : x = [] := List.eq_nil_of_length_eq_zero (Nat.le_zero.1 hx)
      subst this
      rw [List.nil_append, pyReplace_nil, List.nil_append]
    | succ n ih =>
      intro x y hx hcond
      cases x with
      | nil => rw [List.nil_append, pyReplace_nil, List.nil_append]
      | cons c xs =>
        rw [List.cons_append, pyReplace_cons c (xs ++ y) p r, pyReplace_cons c xs p r]
        by_cases hpre : p.isPrefixOf (c :: (xs ++ y))
        · have hplen : p.length ≤ (c :: xs).length := by
            by_contra hlt
            push_neg at hlt
            exact hcond (c :: xs) (List.suffix_refl _) (by simp) hlt
              (by rw [List.cons_append]; exact List.isPrefixOf_iff_prefix.1 hpre)
          have hpre' : p <+: (c :: xs) ++ y := by
            rw [List.cons_append]
            exact List.isPrefixOf_iff_prefix.1 hpre
          have hpx : p.isPrefixOf (c :: xs) :=
            List.isPrefixOf_iff_prefix.2 ((List.isPrefix_append_of_length hplen).1 hpre')
          rw [if_pos hpre, if_pos hpx]
          have hdrop : (xs ++ y).drop (p.length - 1) =
              xs.drop (p.length - 1) ++ y := by
            apply List.drop_append_of_le_length
            simp only [List.length_cons] at hplen
            omega
          rw [hdrop]
          have hrec := ih (xs.drop (p.length - 1)) y
            (by simp only [List.length_drop]; simp only [List.length_cons] at hx; omega)
            (fun b hb hbne hblen => hcond b
              (hb.trans ((List.drop_suffix _ _).trans (List.suffix_cons c xs)))
              hbne hblen)
          rw [hrec, List.append_assoc]
        · have hpx : ¬ p.isPrefixOf (c :: xs) := by
            intro hx2
            apply hpre
            rw [List.isPrefixOf_iff_prefix] at hx2 ⊢
            rw [← List.cons_append]
            exact hx2.trans (List.prefix_append _ _)
          rw [if_neg hpre, if_neg hpx]
          have hrec := ih xs y
            (by simp only [List.length_cons] at hx; omega)
            (fun b hb hbne hblen => hcond b (hb.trans (List.suffix_cons c xs))
              hbne hblen)
          rw [hrec, List.cons_append]
  exact fun x y h => main x.length x y (le_refl _) h

theorem space_mem_of_crossing {w b y' : PyStr}
    (h : w <+: b ++ ' ' :: y') (hlen : b.length < w.length) : ' ' ∈ w := by
  obtain ⟨u, hu⟩ := h
  have h1 : (w ++ u).get? b.length = some ' ' := by
    rw [hu]
    rw [List.get?_append_right (le_refl _)]
    simp
  rw [List.get?_append hlen] at h1
  exact List.get?_mem h1

theorem takeWhile_append_space (a rest : PyStr) (ha : ' ' ∉ a) :
    (a ++ ' ' :: rest).takeWhile (fun c => !(c = ' ')) = a := by
  induction a with
  | nil => simp [List.takeWhile]
  | cons c a' ih =>
    have hc : ¬ c = ' ' := fun h => ha (h ▸ List.mem_cons_self c a')
    rw [List.cons_append, List.takeWhile_cons]
    simp only [hc]
    rw [ih (fun h => ha (List.mem_cons_of_mem c h))]
    simp

theorem space_split_unique {a b c d : PyStr}
    (h : a ++ ' ' :: b = c ++ ' ' :: d) (ha : ' ' ∉ a) (hc : ' ' ∉ c) :
    a = c ∧ b = d := by
  have h1 : a = c := by
    have h2 := congrArg (List.takeWhile (fun x => !(x = ' '))) h
    rwa [takeWhile_append_space a b ha, takeWhile_append_space c d hc] at h2
  subst h1
  have h3 := List.append_cancel_left h
  exact ⟨rfl, List.tail_eq_of_cons_eq h3⟩

theorem space_parts_of_eq {t1 t2 b w2 : PyStr}
    (h : b ++ ' ' :: w2 = t1 ++ ' ' :: t2) (h1 : ' ' ∉ t1) (h2 : ' ' ∉ t2) :
    b = t1 ∧ w2 = t2 := by
  have hcount := congrArg (List.count ' ') h
  simp only [List.count_append, List.count_cons_self] at hcount
  rw [List.count_eq_zero_of_not_mem h1, List.count_eq_zero_of_not_mem h2] at hcount
  have hb : ' ' ∉ b := by
    rw [← List.count_eq_zero]
    omega
  exact space_split_unique h hb h1

theorem not_prefix_intercalate (t2 : PyStr) (h2 : t2 ≠ []) (hs2 : ' ' ∉ t2) :
    ∀ gs : List PyStr, (∀ g ∈ gs, ¬ t2 <+: g) →
      ¬ t2 <+: List.intercalate [' '] gs := by
  intro gs
  induction gs with
  | nil =>
    intro _ h
    rw [intercalate_nil] at h
    exact h2 (List.prefix_nil.1 h)
  | cons g gs ih =>
    intro hall h
    cases gs with
    | nil =>
      rw [intercalate_one] at h
      exact hall g (by simp) h
    | cons g' t =>
      rw [intercalate_cons₂, List.append_assoc, List.singleton_append] at h
      rcases prefix_append_split h with h1 | ⟨hgp, hdrop⟩
      · exact hall g (by simp) h1
      · by_cases hdn : t2.drop g.length = []
        · have hlen : t2.length ≤ g.length := by
            have h3 := congrArg List.length hdn
            simp only [List.length_drop, List.length_nil] at h3
            omega
          have hge : g = t2 := hgp.eq_of_length (le_antisymm hgp.length_le hlen)
          exact hall g (by simp) (hge ▸ List.prefix_refl t2)
        · obtain ⟨c, rest, hcr⟩ := List.exists_cons_of_ne_nil hdn
          rw [hcr, List.cons_prefix_cons] at hdrop
          apply hs2
          have : c ∈ t2 := List.drop_subset g.length t2 (hcr ▸ List.mem_cons_self c rest)
          rwa [hdrop.1] at this

theorem not_isPrefixOf_space_cons {w : PyStr} (t : PyStr)
    (hw : w ≠ []) (hhead : ∀ c w', w = c :: w' → c ≠ ' ') :
    ¬ w.isPrefixOf (' ' :: t) = true := by
  obtain ⟨c, w', rfl⟩ := List.exists_cons_of_ne_nil hw
  intro h
  rw [List.isPrefixOf_iff_prefix, List.cons_prefix_cons] at h
  exact hhead c w' rfl h.1

theorem strip_word_free (w : PyStr) (hw : w ≠ []) (hs : ' ' ∉ w) :
    ∀ fs : List PyStr,
      pyReplace (List.intercalate [' '] fs) w [] =
        List.intercalate [' '] (fs.map (fun f => pyReplace f w [])) := by
  intro fs
  induction fs with
  | nil => rw [intercalate_nil, List.map_nil, intercalate_nil, pyReplace_nil]
  | cons f gs ih =>
    cases gs with
    | nil => rw [intercalate_one, List.map_cons, List.map_nil, intercalate_one]
    | cons g t =>
      rw [intercalate_cons₂, List.append_assoc, List.singleton_append]
      have hra := replace_append w [] f
        (' ' :: List.intercalate [' '] (g :: t))
        (fun b _ _ hblen hwp => hs (space_mem_of_crossing hwp hblen))
      rw [hra]
      have hsp : pyReplace (' ' :: List.intercalate [' '] (g :: t)) w [] =
          ' ' :: pyReplace (List.intercalate [' '] (g :: t)) w [] := by
        rw [pyReplace_cons, if_neg (not_isPrefixOf_space_cons _ hw
          (fun c w' heq hc => hs (heq ▸ (hc ▸ List.mem_cons_self c w'))))]
      rw [hsp, ih]
      simp only [List.map_cons, intercalate_cons₂, List.append_assoc,
        List.singleton_append]

theorem strip_word_two (w t1 t2 : PyStr) (hweq : w = t1 ++ ' ' :: t2)
    (h1 : t1 ≠ []) (h2 : t2 ≠ []) (hs1 : ' ' ∉ t1) (hs2 : ' ' ∉ t2) :
    ∀ fs : List PyStr, (∀ f ∈ fs, ¬ t2 <+: f) →
      pyReplace (List.intercalate [' '] fs) w [] =
        List.intercalate [' '] (fs.map (fun f => pyReplace f w [])) := by
  subst hweq
  intro fs
  induction fs with
  | nil =>
    intro _
    rw [intercalate_nil, List.map_nil, intercalate_nil, pyReplace_nil]
  | cons f gs ih =>
    intro hall
    cases gs with
    | nil => rw [intercalate_one, List.map_cons, List.map_nil, intercalate_one]
    | cons g t =>
      rw [intercalate_cons₂, List.append_assoc, List.singleton_append]
      have hcond : ∀ b : PyStr, b <:+ f → b ≠ [] →
          b.length < (t1 ++ ' ' :: t2).length →
          ¬ (t1 ++ ' ' :: t2) <+: (b ++ ' ' :: List.intercalate [' '] (g :: t)) := by
        intro b _ _ hblen hwp
        rcases prefix_append_split hwp with hA | ⟨hbp, hdrop⟩
        · exact absurd hA.length_le (by omega)
        · obtain ⟨u, hu⟩ := hbp
          have hu2 : (t1 ++ ' ' :: t2).drop b.length = u := by
            rw [← hu, List.drop_left]
          rw [hu2] at hdrop
          have hune : u ≠ [] := by
            intro h0
            rw [h0, List.append_nil] at hu
            rw [← hu] at hblen
            omega
          obtain ⟨uc, urest, rfl⟩ := List.exists_cons_of_ne_nil hune
          rw [List.cons_prefix_cons] at hdrop
          obtain ⟨huc, hurest⟩ := hdrop
          subst huc
          obtain ⟨_, hut2⟩ := space_parts_of_eq hu hs1 hs2
          exact not_prefix_intercalate t2 h2 hs2 (g :: t)
            (fun g' hg' => hall g' (List.mem_cons_of_mem f hg'))
            (hut2 ▸ hurest)
      have hra := replace_append (t1 ++ ' ' :: t2) [] f
        (' ' :: List.intercalate [' '] (g :: t)) hcond
      rw [hra]
      have hhead : ∀ c w', t1 ++ ' ' :: t2 = c :: w' → c ≠ ' ' := by
        intro c w' heq hc
        obtain ⟨d, t1', rfl⟩ := List.exists_cons_of_ne_nil h1
        rw [List.cons_append] at heq
        injection heq with hd _
        exact hs1 (by rw [hd, hc]; exact List.mem_cons_self ' ' t1')
      have hsp : pyReplace (' ' :: List.intercalate [' '] (g :: t))
          (t1 ++ ' ' :: t2) [] =
          ' ' :: pyReplace (List.intercalate [' '] (g :: t))
            (t1 ++ ' ' :: t2) [] := by
        rw [pyReplace_cons, if_neg (not_isPrefixOf_space_cons _ (by simp) hhead)]
      rw [hsp, ih (fun g' hg' => hall g' (List.mem_cons_of_mem f hg'))]
      simp only [List.map_cons, intercalate_cons₂, List.append_assoc,
        List.singleton_append]

set_option maxHeartbeats 1000000 in
theorem blacklist_words_classified :
    ∀ w ∈ NOT_WIND_WORDS,
      (if ' ' ∈ w then
        (w = tok1 w ++ ' ' :: tok2 w ∧ tok1 w ≠ [] ∧ tok2 w ≠ [] ∧
          ' ' ∉ tok1 w ∧ ' ' ∉ tok2 w ∧
          FRAGS.all (fun f => !((tok2 w).isPrefixOf f)) = true)
      else (w ≠ [])) := by decide

set_option maxHeartbeats 1000000 in
theorem frags_closed :
    ∀ f ∈ FRAGS, ∀ w ∈ NOT_WIND_WORDS, pyReplace f w [] ∈ FRAGS := by decide

set_option maxHeartbeats 1000000 in
theorem blacklist_residue_chars :
    ∀ w ∈ NOT_WIND_WORDS, ∀ c ∈ stripLookAlikes w, c ∈ allowedChars := by
  decide

theorem strip_foldl_intercalate :
    ∀ (wl : List PyStr), (∀ w ∈ wl, w ∈ NOT_WIND_WORDS) →
      ∀ fs : List PyStr, (∀ f ∈ fs, f ∈ FRAGS) →
        List.foldl (fun acc w => pyReplace acc w [])
            (List.intercalate [' '] fs) wl =
          List.intercalate [' '] (fs.map
            (fun f => List.foldl (fun acc w => pyReplace acc w []) f wl)) := by
  intro wl
  induction wl with
  | nil =>
    intro _ fs _
    simp
  | cons w wl ih =>
    intro hwl fs hfs
    have hw : w ∈ NOT_WIND_WORDS := hwl w (by simp)
    have hstep : pyReplace (List.intercalate [' '] fs) w [] =
        List.intercalate [' '] (fs.map (fun f => pyReplace f w [])) := by
      have hcls := blacklist_words_classified w hw
      by_cases hsp : ' ' ∈ w
      · rw [if_pos hsp] at hcls
        obtain ⟨heq, h1, h2, hs1, hs2, hall⟩ := hcls
        refine strip_word_two w (tok1 w) (tok2 w) heq h1 h2 hs1 hs2 fs ?_
        intro f hf hpre
        have hfF : f ∈ FRAGS := hfs f hf
        have hb := List.all_eq_true.1 hall f hfF
        rw [Bool.not_eq_true'] at hb
        exact absurd (List.isPrefixOf_iff_prefix.2 hpre) (by simp [hb])
      · rw [if_neg hsp] at hcls
        exact strip_word_free w hcls hsp fs
    rw [List.foldl_cons, hstep, ih (fun w' hw' => hwl w' (by simp [hw']))
      (fs.map (fun f => pyReplace f w []))
      (fun f hf => by
        obtain ⟨f0, hf0, rfl⟩ := List.mem_map.1 hf
        exact frags_closed f0 (hfs f0 hf0) w hw)]
    rw [List.map_map]
    rfl

theorem chars_of_intercalate :
    ∀ (c : Char) (fs : List PyStr), c ∈ List.intercalate [' '] fs →
      c = ' ' ∨ ∃ f ∈ fs, c ∈ f := by
  intro c fs
  induction fs with
  | nil =>
    intro h
    rw [intercalate_nil] at h
    simp at h
  | cons f gs ih =>
    intro h
    cases gs with
    | nil =>
      rw [intercalate_one] at h
      exact Or.inr ⟨f, by simp, h⟩
    | cons g t =>
      rw [intercalate_cons₂, List.append_assoc, List.singleton_append] at h
      rcases List.mem_append.1 h with h1 | h1
      · exact Or.inr ⟨f, by simp, h1⟩
      · rcases List.mem_cons.1 h1 with rfl | h2
        · exact Or.inl rfl
        · rcases ih h2 with h3 | ⟨f', hf', hc'⟩
          · exact Or.inl h3
          · exact Or.inr ⟨f', List.mem_cons_of_mem f hf', hc'⟩

theorem countAcronymMatchesAux_eq_zero (t : PyStr)
    (h : ∀ a ∈ GOOD_WIND_ACRONYMS, ∀ pre suf : PyStr,
      pyContains t (pre ++ a ++ suf) = false) :
    ∀ ctxs : List (PyStr × PyStr), countAcronymMatchesAux t ctxs = 0 := by
  intro ctxs
  induction ctxs with
  | nil => rfl
  | cons ctx rest ih =>
    have hz : GOOD_WIND_ACRONYMS.countP
        (fun a => pyContains t (ctx.1 ++ a ++ ctx.2)) = 0 :=
      List.countP_eq_zero.2 (fun a ha => by rw [h a ha ctx.1 ctx.2]; simp)
    simp only [countAcronymMatchesAux]
    rw [hz]
    simpa using ih

/-- C9: for every text consisting only of blacklisted wind look-alike
phrases (a space-separated concatenation of `NOT_WIND_WORDS` entries,
e.g. `"window"`, `"wind erosion"`), the wind heuristic
`possibly_mentions_wind` returns false at the default match-count
threshold 1: after stripping the blacklist words from the casefolded
text, the count of matched keywords, acronyms and phrases is 0 and does
not exceed the threshold.  (`cf` abstracts `str.casefold`, which fixes
these lowercase ASCII texts.) -/
theorem possibly_mentions_wind_blacklist_only :
    ∀ (cf : PyStr → PyStr) (ws : List PyStr),
      (∀ w ∈ ws, w ∈ NOT_WIND_WORDS) →
      cf (List.intercalate [' '] ws) = List.intercalate [' '] ws →
      possiblyMentionsWind cf (List.intercalate [' '] ws) 1 = false := by
  intro cf ws hws hcf
  have hstrip : convertToHeuristicsText cf (List.intercalate [' '] ws) =
      List.intercalate [' '] (ws.map stripLookAlikes) := by
    show stripLookAlikes (cf (List.intercalate [' '] ws)) = _
    rw [hcf]
    show List.foldl (fun acc w => pyReplace acc w [])
        (List.intercalate [' '] ws) NOT_WIND_WORDS = _
    rw [strip_foldl_intercalate NOT_WIND_WORDS (fun _ h => h) ws
      (fun f hf => List.mem_append_left _ (hws f hf))]
    rfl
  have hchars : ∀ c ∈ convertToHeuristicsText cf (List.intercalate [' '] ws),
      c ∈ allowedChars := by
    rw [hstrip]
    intro c hc
    rcases chars_of_intercalate c _ hc with rfl | ⟨f, hf, hcf2⟩
    · decide
    · obtain ⟨w0, hw0, rfl⟩ := List.mem_map.1 hf
      exact blacklist_residue_chars w0 (hws w0 hw0) c hcf2
  have hwind : pyContains
      (convertToHeuristicsText cf (List.intercalate [' '] ws))
      ("wind".toList) = false :=
    @pyContains_eq_false_of_missing_char _ ("wind".toList) 'w' (by decide)
      (fun hmem => absurd (hchars 'w' hmem) (by decide))
  have hsetback : pyContains
      (convertToHeuristicsText cf (List.intercalate [' '] ws))
      ("setback".toList) = false :=
    @pyContains_eq_false_of_missing_char _ ("setback".toList) 's' (by decide)
      (fun hmem => absurd (hchars 's' hmem) (by decide))
  have hc1 : countSingleKeywordMatches
      (convertToHeuristicsText cf (List.intercalate [' '] ws)) = 0 := by
    apply List.countP_eq_zero.2
    intro k hk
    have hk2 : k = "wind".toList ∨ k = "setback".toList := by
      simpa [GOOD_WIND_KEYWORDS] using hk
    rcases hk2 with rfl | rfl
    · intro hcontra
      rw [hwind] at hcontra
      simp at hcontra
    · intro hcontra
      rw [hsetback] at hcontra
      simp at hcontra
  have hacr : ∀ a ∈ GOOD_WIND_ACRONYMS, ∀ pre suf : PyStr,
      pyContains (convertToHeuristicsText cf (List.intercalate [' '] ws))
        (pre ++ a ++ suf) = false := by
    intro a ha pre suf
    have hwa : 'w' ∈ a := by
      have hall : ∀ a ∈ GOOD_WIND_ACRONYMS, 'w' ∈ a := by decide
      exact hall a ha
    refine @pyContains_eq_false_of_missing_char _ (pre ++ a ++ suf) 'w' ?_ ?_
    · exact List.mem_append_left _ (List.mem_append_right _ hwa)
    · exact fun hmem => absurd (hchars 'w' hmem) (by decide)
  have hc2 : countAcronymMatches
      (convertToHeuristicsText cf (List.intercalate [' '] ws)) = 0 :=
    countAcronymMatchesAux_eq_zero _ hacr GOOD_ACRONYM_CONTEXTS
  have hc3 : countPhraseMatches
      (convertToHeuristicsText cf (List.intercalate [' '] ws)) = 0 := by
    apply List.countP_eq_zero.2
    intro ph hph hall2
    have hwmem : ("wind".toList) ∈ pySplitSpace ph := by
      have hphs : ∀ ph ∈ GOOD_WIND_PHRASES, ("wind".toList) ∈ pySplitSpace ph := by
        decide
      exact hphs ph hph
    have hcont := List.all_eq_true.1 hall2 _ hwmem
    rw [hwind] at hcont
    exact absurd hcont (by simp)
  show decide (1 <
    countSingleKeywordMatches
      (convertToHeuristicsText cf (List.intercalate [' '] ws)) +
    countAcronymMatches
      (convertToHeuristicsText cf (List.intercalate [' '] ws)) +
    countPhraseMatches
      (convertToHeuristicsText cf (List.intercalate [' '] ws))) = false
  rw [hc1, hc2, hc3]
  rfl

/-- C9 witness: the heuristic evaluated (via the claim theorem) on the
concrete blacklist-only text `"window wind erosion"` with the identity
casefold. -/
theorem possibly_mentions_wind_witness :
    possiblyMentionsWind id
      (List.intercalate [' '] ["window".toList, "wind erosion".toList])
      1 = false :=
  possibly_mentions_wind_blacklist_only id
    ["window".toList, "wind erosion".toList] (by decide) rfl

end Compass
